import Mathlib

/-!
Verification of the blimsey conversational bot core (Python sources under
`src/`).  The Python string operations used by the code are embedded over
`List Char`: Python compares strings by code point, which coincides with
`Char` comparison by `Char.val`.
-/

set_option maxRecDepth 4000

abbrev Chars := List Char

/-- Python whitespace characters recognised by `str.strip()` / `str.split()`
(ASCII fragment, which is all the repository ever feeds them). -/
def isSpc (c : Char) : Bool :=
  c = ' ' || c = '\t' || c = '\n' || c = '\r' || c = '\x0b' || c = '\x0c'

/-- Python `str.lower()` on the character range the repository uses
(ASCII plus the accented Spanish letters appearing in the sources). -/
def pyLowerChar (c : Char) : Char :=
  if 'A' ≤ c ∧ c ≤ 'Z' then Char.ofNat (c.toNat + 32)
  else if c = 'Á' then 'á' else if c = 'É' then 'é'
  else if c = 'Í' then 'í' else if c = 'Ó' then 'ó'
  else if c = 'Ú' then 'ú' else if c = 'Ñ' then 'ñ'
  else if c = 'Ü' then 'ü' else c

def pyLower (s : Chars) : Chars := s.map pyLowerChar

/-- Python `str.strip()`: drop leading and trailing whitespace. -/
def pyStrip (s : Chars) : Chars :=
  ((s.dropWhile isSpc).reverse.dropWhile isSpc).reverse

/-- Python `str.split(sep)` for a one-character separator: splits on every
occurrence, keeping empty pieces (`"".split(',') == [""]`). -/
def pySplit (sep : Char) : Chars → List Chars
  | [] => [[]]
  | c :: cs =>
    if c = sep then [] :: pySplit sep cs
    else
      match pySplit sep cs with
      | t :: ts => (c :: t) :: ts
      | [] => [[c]]

/-- Number of words of Python `str.split()` with no argument: maximal runs
of non-whitespace characters. -/
def countWordsAux : Bool → Chars → Nat
  | _, [] => 0
  | inw, c :: cs =>
    if isSpc c then countWordsAux false cs
    else (if inw then 0 else 1) + countWordsAux true cs

def countWords (s : Chars) : Nat := countWordsAux false s

/-- `startsWithL p l` holds when `p` is an initial segment of `l`. -/
def startsWithL : Chars → Chars → Bool
  | [], _ => true
  | _ :: _, [] => false
  | a :: ps, b :: ls => a == b && startsWithL ps ls

/-- Python substring containment `needle in hay`. -/
def containsSub (needle : Chars) : Chars → Bool
  | [] => startsWithL needle []
  | c :: cs => startsWithL needle (c :: cs) || containsSub needle cs

/-- Python `"\n".join(msgs)`. -/
def joinNL : List Chars → Chars
  | [] => []
  | [m] => m
  | m :: ms => m ++ '\n' :: joinNL ms

/-- Strict lexicographic comparison on `List Char`, matching Python
string `<` (code-point order). -/
def lexLt : Chars → Chars → Bool
  | [], [] => false
  | [], _ :: _ => true
  | _ :: _, [] => false
  | a :: as, b :: bs =>
    if a < b then true else if b < a then false else lexLt as bs

/-- Insert into a strictly sorted list, skipping exact duplicates.  Folding
this over a list realises Python `sorted(set(xs))`. -/
def insSorted (x : Chars) : List Chars → List Chars
  | [] => [x]
  | y :: ys =>
    if lexLt x y then x :: y :: ys
    else if x = y then y :: ys
    else y :: insSorted x ys

/-- Python `sorted(set(l))` for a list of strings. -/
def sortedDedup (l : List Chars) : List Chars := l.foldr insSorted []

-- ======================================================================
-- Profile merge engine: src/core/summary_manager.py
-- ======================================================================

/-- A JSON value stored in a profile field or carried by extracted facts:
either a single string or a list of strings (the shape §3 of the spec gives
to `ExtractedFacts` and `Profile` field values). -/
inductive SVal where
  | str : Chars → SVal
  | vlist : List Chars → SVal
deriving DecidableEq, Repr

/-- `normalize_to_list` (src/core/summary_manager.py lines 74-83): a bare
string becomes a one-element list; a list of strings is returned as is
(its elements are not lists, so the flattening branch never fires). -/
def normalize_to_list : SVal → List Chars
  | .str s => [s]
  | .vlist l => l

/-- The "not provided" sentinel dropped by `clean_values`. -/
def sentinelNP : Chars := "no se proporcionó".toList

/-- The filter of `clean_values`: keep non-empty values that are not the
sentinel (line 93: `v and v.lower() != "no se proporcionó"`). -/
def keepVal (v : Chars) : Bool := !v.isEmpty && !(pyLower v == sentinelNP)

/-- `clean_values` (src/core/summary_manager.py lines 85-93): flatten,
comma-split each string, strip, drop empties and the sentinel, then
`sorted(set(...))`. -/
def clean_values (v : SVal) : List Chars :=
  sortedDedup
    (((normalize_to_list v).flatMap
        (fun s => (pySplit ',' s).map pyStrip)).filter keepVal)

/-- Line 100/107: `merged[0] if len(merged) == 1 else merged`. -/
def storeVal : List Chars → SVal
  | [m] => .str m
  | l => .vlist l

/-- A Python dict of string keys and string/list values, as an ordered
association list (Python dicts preserve insertion order). -/
abbrev SMap := List (Chars × SVal)

def lookupKey (k : Chars) : SMap → Option SVal
  | [] => none
  | (k1, v1) :: rest => if k1 = k then some v1 else lookupKey k rest

/-- Python `d[k] = v`: replace the value in place if the key exists,
otherwise append the pair at the end. -/
def setKey (k : Chars) (v : SVal) : SMap → SMap
  | [] => [(k, v)]
  | (k1, v1) :: rest =>
    if k1 = k then (k, v) :: rest else (k1, v1) :: setKey k v rest

/-- `existing[section].get(key, [])` (lines 97 and 104). -/
def lookupVal (k : Chars) (m : SMap) : SVal :=
  match lookupKey k m with
  | some v => v
  | none => .vlist []

/-- One iteration of the merge loops of `save_user_summary`
(lines 95-100 and 102-107): clean the incoming value, clean the stored
value, union, sort, and store back when non-empty. -/
def mergeStep (ex : SMap) (kv : Chars × SVal) : SMap :=
  let new_vals := clean_values kv.2
  let old_vals := clean_values (lookupVal kv.1 ex)
  let merged := sortedDedup (old_vals ++ new_vals)
  if merged = [] then ex else setKey kv.1 (storeVal merged) ex

def mergeSection (facts : List (Chars × SVal)) (ex : SMap) : SMap :=
  facts.foldl mergeStep ex

/-- Python `l[-10:]`. -/
def lastN (n : Nat) (l : List Chars) : List Chars := l.drop (l.length - n)

/-- The topic loop of `save_user_summary` (lines 109-112) before the
truncation: append each cleaned topic that is non-empty and not already
present. -/
def topicsAppended (v : SVal) (existing : List Chars) : List Chars :=
  (clean_values v).foldl
    (fun acc t => if t ≠ [] ∧ ¬ t ∈ acc then acc ++ [t] else acc) existing

/-- Lines 109-113: append new topics, then truncate to the last 10. -/
def mergeTopics (v : SVal) (existing : List Chars) : List Chars :=
  lastN 10 (topicsAppended v existing)

/-- The persisted profile (src/core/summary_manager.py), restricted to the
three merged fields; `last_updated` is a timestamp and `contradictions` is
never touched by the merge. -/
structure Profile where
  personal_info : SMap
  preferences : SMap
  important_topics : List Chars
deriving DecidableEq, Repr

/-- The transient extraction result passed to `save_user_summary` as
`summary`: the same shape, with `important_topics` still a raw JSON
value. -/
structure ExtractedFacts where
  personal_info : List (Chars × SVal)
  preferences : List (Chars × SVal)
  important_topics : SVal
deriving DecidableEq, Repr

/-- The pure merge performed by `save_user_summary`
(src/core/summary_manager.py lines 57-119), dropping the file I/O and the
timestamp stamping. -/
def save_user_summary (s : ExtractedFacts) (existing : Profile) : Profile :=
  { personal_info := mergeSection s.personal_info existing.personal_info
    preferences := mergeSection s.preferences existing.preferences
    important_topics := mergeTopics s.important_topics existing.important_topics }

-- ======================================================================
-- Order facts about lexLt and sortedDedup
-- ======================================================================

/-- The strict order as a proposition. -/
def LtP (x y : Chars) : Prop := lexLt x y = true

theorem lexLt_nil_right : ∀ b : Chars, lexLt b [] = false
  | [] => rfl
  | _ :: _ => rfl

theorem lexLt_irrefl : ∀ l : Chars, lexLt l l = false
  | [] => rfl
  | a :: as => by
    simp only [lexLt, lt_irrefl, if_false, lexLt_irrefl as]

theorem lexLt_asymm : ∀ {a b : Chars}, lexLt a b = true → lexLt b a = false
  | [], [], h => by simp [lexLt] at h
  | [], _ :: _, _ => rfl
  | _ :: _, [], h => by simp [lexLt] at h
  | x :: xs, y :: ys, h => by
    simp only [lexLt] at h ⊢
    by_cases hxy : x < y
    · simp [hxy, asymm hxy]
    · by_cases hyx : y < x
      · simp [hxy, hyx] at h
      · simpa [hxy, hyx] using lexLt_asymm (by simpa [hxy, hyx] using h)

theorem lexLt_total_eq : ∀ {a b : Chars},
    lexLt a b = false → lexLt b a = false → a = b
  | [], [], _, _ => rfl
  | [], _ :: _, h, _ => by simp [lexLt] at h
  | _ :: _, [], _, h => by simp [lexLt] at h
  | x :: xs, y :: ys, h1, h2 => by
    simp only [lexLt] at h1 h2
    by_cases hxy : x < y
    · simp [hxy] at h1
    · by_cases hyx : y < x
      · simp [hyx, hxy] at h2
      · have hxy2 : x = y := le_antisymm (not_lt.mp hyx) (not_lt.mp hxy)
        subst hxy2
        have := lexLt_total_eq (by simpa [hxy] using h1) (by simpa [hxy] using h2)
        rw [this]

theorem lexLt_trans : ∀ {a b c : Chars},
    lexLt a b = true → lexLt b c = true → lexLt a c = true
  | [], _, _ :: _, _, _ => rfl
  | [], b, [], _, h2 => by rw [lexLt_nil_right] at h2; exact absurd h2 (by simp)
  | _ :: _, b, [], _, h2 => by rw [lexLt_nil_right] at h2; exact absurd h2 (by simp)
  | x :: xs, [], c :: cs, h1, _ => by simp [lexLt] at h1
  | x :: xs, y :: ys, z :: zs, h1, h2 => by
    simp only [lexLt] at h1 h2 ⊢
    by_cases hxy : x < y
    · by_cases hyz : y < z
      · simp [lt_trans hxy hyz]
      · by_cases hzy : z < y
        · simp [hyz, hzy] at h2
        · have : y = z := le_antisymm (not_lt.mp hzy) (not_lt.mp hyz)
          subst this
          simp [hxy]
    · by_cases hyx : y < x
      · simp [hxy, hyx] at h1
      · have hxy2 : x = y := le_antisymm (not_lt.mp hyx) (not_lt.mp hxy)
        subst hxy2
        by_cases hxz : x < z
        · simp [hxz]
        · by_cases hzx : z < x
          · simp [hxz, hzx] at h2
          · have hxz2 : x = z := le_antisymm (not_lt.mp hzx) (not_lt.mp hxz)
            subst hxz2
            have t1 : lexLt xs ys = true := by simpa [hxy] using h1
            have t2 : lexLt ys zs = true := by simpa [hxy] using h2
            simpa [hxz] using lexLt_trans t1 t2

theorem lexLt_of_not_of_ne {a b : Chars} (h : lexLt a b = false) (hne : a ≠ b) :
    lexLt b a = true := by
  cases hba : lexLt b a with
  | true => rfl
  | false => exact absurd (lexLt_total_eq h hba) hne

theorem mem_insSorted (a x : Chars) : ∀ l : List Chars,
    (a ∈ insSorted x l ↔ a = x ∨ a ∈ l)
  | [] => by simp [insSorted]
  | y :: ys => by
    show a ∈ (if lexLt x y = true then x :: y :: ys
        else if x = y then y :: ys else y :: insSorted x ys) ↔ _
    by_cases h1 : lexLt x y = true
    · rw [if_pos h1]
      simp only [List.mem_cons]
    · rw [if_neg h1]
      by_cases h2 : x = y
      · rw [if_pos h2]
        subst h2
        simp only [List.mem_cons]
        tauto
      · rw [if_neg h2]
        simp only [List.mem_cons, mem_insSorted a x ys]
        tauto

theorem pairwise_insSorted {x : Chars} : ∀ {l : List Chars},
    l.Pairwise LtP → (insSorted x l).Pairwise LtP
  | [], _ => List.pairwise_singleton _ _
  | y :: ys, hp => by
    rcases List.pairwise_cons.mp hp with ⟨hy, hys⟩
    by_cases h1 : lexLt x y = true
    · simp only [insSorted, h1, if_true]
      refine List.pairwise_cons.mpr ⟨?_, hp⟩
      intro z hz
      rcases List.mem_cons.mp hz with hz | hz
      · subst hz; exact h1
      · exact lexLt_trans h1 (hy z hz)
    · by_cases h2 : x = y
      · subst h2
        simp only [insSorted, h1, if_false, if_pos rfl]
        exact hp
      · simp only [insSorted, h1, if_false, h2]
        refine List.pairwise_cons.mpr ⟨?_, pairwise_insSorted hys⟩
        intro z hz
        rcases (mem_insSorted z x ys).mp hz with hz | hz
        · subst hz
          exact lexLt_of_not_of_ne (by simpa using h1) h2
        · exact hy z hz

theorem insSorted_of_mem {x : Chars} : ∀ {l : List Chars},
    l.Pairwise LtP → x ∈ l → insSorted x l = l
  | [], _, hm => absurd hm (List.not_mem_nil x)
  | y :: ys, hp, hm => by
    rcases List.pairwise_cons.mp hp with ⟨hy, hys⟩
    by_cases h2 : x = y
    · subst h2
      simp [insSorted, lexLt_irrefl]
    · have hxys : x ∈ ys := by
        rcases List.mem_cons.mp hm with h | h
        · exact absurd h h2
        · exact h
      have h1 : lexLt x y = false := lexLt_asymm (hy x hxys)
      simp [insSorted, h1, h2, insSorted_of_mem hys hxys]

theorem insSorted_head {x : Chars} {l : List Chars}
    (h : ∀ y ∈ l, LtP x y) : insSorted x l = x :: l := by
  cases l with
  | nil => rfl
  | cons y ys =>
    have hxy : lexLt x y = true := h y (List.mem_cons_self y ys)
    simp [insSorted, hxy]

theorem mem_sortedDedup (a : Chars) : ∀ l : List Chars,
    (a ∈ sortedDedup l ↔ a ∈ l)
  | [] => Iff.rfl
  | x :: xs => by
    simp only [sortedDedup, List.foldr_cons] at *
    rw [show List.foldr insSorted [] xs = sortedDedup xs from rfl] at *
    rw [mem_insSorted a x (sortedDedup xs), mem_sortedDedup a xs]
    simp

theorem pairwise_sortedDedup : ∀ l : List Chars, (sortedDedup l).Pairwise LtP
  | [] => List.Pairwise.nil
  | _ :: xs => pairwise_insSorted (pairwise_sortedDedup xs)

theorem sortedDedup_of_pairwise : ∀ {l : List Chars},
    l.Pairwise LtP → sortedDedup l = l
  | [], _ => rfl
  | x :: xs, hp => by
    rcases List.pairwise_cons.mp hp with ⟨hx, hxs⟩
    show insSorted x (sortedDedup xs) = x :: xs
    rw [sortedDedup_of_pairwise hxs]
    exact insSorted_head hx

theorem pairwise_eq_of_mem_iff : ∀ {l m : List Chars},
    l.Pairwise LtP → m.Pairwise LtP → (∀ a, a ∈ l ↔ a ∈ m) → l = m
  | [], [], _, _, _ => rfl
  | [], b :: ms, _, _, hiff => by
    have := (hiff b).mpr (List.mem_cons_self b ms)
    simp at this
  | a :: ls, [], _, _, hiff => by
    have := (hiff a).mp (List.mem_cons_self a ls)
    simp at this
  | a :: ls, b :: ms, hl, hm, hiff => by
    rcases List.pairwise_cons.mp hl with ⟨ha, hls⟩
    rcases List.pairwise_cons.mp hm with ⟨hb, hms⟩
    have hab : a = b := by
      have h1 := (hiff a).mp (List.mem_cons_self a ls)
      have h2 := (hiff b).mpr (List.mem_cons_self b ms)
      rcases List.mem_cons.mp h1 with h1 | h1
      · exact h1
      · rcases List.mem_cons.mp h2 with h2 | h2
        · exact h2.symm
        · have hba : lexLt b a = true := hb a h1
          have hab : lexLt a b = true := ha b h2
          rw [lexLt_asymm hab] at hba
          exact absurd hba (by simp)
    subst hab
    have htails : ∀ x, x ∈ ls ↔ x ∈ ms := by
      intro x
      constructor
      · intro hx
        have hax : lexLt a x = true := ha x hx
        have : x ∈ a :: ms := (hiff x).mp (List.mem_cons_of_mem a hx)
        rcases List.mem_cons.mp this with h | h
        · subst h; rw [lexLt_irrefl] at hax; exact absurd hax (by simp)
        · exact h
      · intro hx
        have hax : lexLt a x = true := hb x hx
        have : x ∈ a :: ls := (hiff x).mpr (List.mem_cons_of_mem a hx)
        rcases List.mem_cons.mp this with h | h
        · subst h; rw [lexLt_irrefl] at hax; exact absurd hax (by simp)
        · exact h
    rw [pairwise_eq_of_mem_iff hls hms htails]

/-- Adding already-present elements and re-sorting is the identity on a
strictly sorted deduplicated list. -/
theorem sortedDedup_append_absorb {M N : List Chars}
    (hM : M.Pairwise LtP) (hN : ∀ x ∈ N, x ∈ M) :
    sortedDedup (M ++ N) = M := by
  refine pairwise_eq_of_mem_iff (pairwise_sortedDedup _) hM ?_
  intro a
  rw [mem_sortedDedup, List.mem_append]
  constructor
  · rintro (h | h)
    · exact h
    · exact hN a h
  · exact Or.inl

-- ======================================================================
-- Cleaned values are fixed points of cleaning
-- ======================================================================

/-- The shape of every string produced by `clean_values`: non-empty, not
the sentinel, already stripped, and comma-free. -/
def CleanAtom (x : Chars) : Prop :=
  x ≠ [] ∧ pyLower x ≠ sentinelNP ∧ pyStrip x = x ∧ ¬ ',' ∈ x

theorem pySplit_sep_not_mem (sep : Char) :
    ∀ l p, p ∈ pySplit sep l → ¬ sep ∈ p
  | [], p, hp => by
    simp only [pySplit, List.mem_singleton] at hp
    subst hp; simp
  | c :: cs, p, hp => by
    simp only [pySplit] at hp
    by_cases hc : c = sep
    · rw [if_pos hc] at hp
      rcases List.mem_cons.mp hp with h | h
      · subst h; simp
      · exact pySplit_sep_not_mem sep cs p h
    · rw [if_neg hc] at hp
      rcases he : pySplit sep cs with _ | ⟨t, ts⟩
      · rw [he] at hp
        simp only [List.mem_singleton] at hp
        subst hp
        simp only [List.mem_singleton]
        exact fun h => hc h.symm
      · rw [he] at hp
        rcases List.mem_cons.mp hp with h | h
        · subst h
          have ht : ¬ sep ∈ t :=
            pySplit_sep_not_mem sep cs t (he ▸ List.mem_cons_self t ts)
          intro hm
          rcases List.mem_cons.mp hm with h2 | h2
          · exact hc h2.symm
          · exact ht h2
        · exact pySplit_sep_not_mem sep cs p (he ▸ List.mem_cons_of_mem t h)

theorem pySplit_of_not_mem (sep : Char) :
    ∀ {l : Chars}, ¬ sep ∈ l → pySplit sep l = [l]
  | [], _ => rfl
  | c :: cs, h => by
    have hc : ¬ c = sep := fun he => h (he ▸ List.mem_cons_self c cs)
    have hcs : ¬ sep ∈ cs := fun hm => h (List.mem_cons_of_mem c hm)
    simp only [pySplit, if_neg hc, pySplit_of_not_mem sep hcs]

theorem dropWhile_eq_self_of_head {p : Char → Bool} :
    ∀ {l : Chars}, (∀ x xs, l = x :: xs → p x = false) →
      List.dropWhile p l = l
  | [], _ => rfl
  | x :: xs, h => by
    rw [List.dropWhile_cons, h x xs rfl]
    simp

theorem mem_pyStrip {x : Char} {l : Chars} (h : x ∈ pyStrip l) : x ∈ l := by
  unfold pyStrip at h
  rw [List.mem_reverse] at h
  have h2 := (List.dropWhile_sublist (l := (List.dropWhile isSpc l).reverse) isSpc).mem h
  rw [List.mem_reverse] at h2
  exact (List.dropWhile_sublist isSpc).mem h2

theorem pyStrip_head_false {l : Chars} {x : Char} {xs : Chars}
    (h : pyStrip l = x :: xs) : isSpc x = false := by
  have hpre : pyStrip l <+: List.dropWhile isSpc l := by
    have hsuf :=
      List.dropWhile_suffix (l := (List.dropWhile isSpc l).reverse) isSpc
    have h2 := List.reverse_prefix.mpr hsuf
    rw [List.reverse_reverse] at h2
    exact h2
  rcases hpre with ⟨t, ht⟩
  rw [h] at ht
  have hne : List.dropWhile isSpc l ≠ [] := by
    rw [← ht]; simp
  have hh := List.head_dropWhile_not isSpc l hne
  have h9 : (List.dropWhile isSpc l).head? = some x := by
    rw [← ht]; rfl
  have hx : (List.dropWhile isSpc l).head hne = x :=
    Option.some.inj ((List.head?_eq_head hne).symm.trans h9)
  rw [hx] at hh
  exact hh

theorem pyStrip_last_false {l : Chars} {x : Char} {xs : Chars}
    (h : (pyStrip l).reverse = x :: xs) : isSpc x = false := by
  unfold pyStrip at h
  rw [List.reverse_reverse] at h
  have hne : List.dropWhile isSpc (List.dropWhile isSpc l).reverse ≠ [] := by
    rw [h]; simp
  have hh := List.head_dropWhile_not isSpc (List.dropWhile isSpc l).reverse hne
  have h9 : (List.dropWhile isSpc (List.dropWhile isSpc l).reverse).head?
      = some x := by
    rw [h]; rfl
  have hx := Option.some.inj ((List.head?_eq_head hne).symm.trans h9)
  rw [hx] at hh
  exact hh

theorem pyStrip_idem (l : Chars) : pyStrip (pyStrip l) = pyStrip l := by
  have h1 : List.dropWhile isSpc (pyStrip l) = pyStrip l :=
    dropWhile_eq_self_of_head (fun x xs h => pyStrip_head_false h)
  show ((List.dropWhile isSpc (pyStrip l)).reverse.dropWhile isSpc).reverse
      = pyStrip l
  rw [h1]
  have h2 : List.dropWhile isSpc (pyStrip l).reverse = (pyStrip l).reverse :=
    dropWhile_eq_self_of_head (fun x xs h => pyStrip_last_false h)
  rw [h2, List.reverse_reverse]

theorem clean_values_atom {v : SVal} {x : Chars} (hx : x ∈ clean_values v) :
    CleanAtom x := by
  unfold clean_values at hx
  rw [mem_sortedDedup, List.mem_filter] at hx
  rcases hx with ⟨hmem, hkeep⟩
  unfold keepVal at hkeep
  rw [Bool.and_eq_true] at hkeep
  refine ⟨?_, ?_, ?_, ?_⟩
  · intro he
    subst he
    simp at hkeep
  · intro he
    rw [he] at hkeep
    simp at hkeep
  · rcases List.mem_flatMap.mp hmem with ⟨s, _, hxs⟩
    rcases List.mem_map.mp hxs with ⟨y, _, hy⟩
    rw [← hy, pyStrip_idem]
  · rcases List.mem_flatMap.mp hmem with ⟨s, _, hxs⟩
    rcases List.mem_map.mp hxs with ⟨y, hy, hxy⟩
    intro hcm
    subst hxy
    exact pySplit_sep_not_mem ',' s y hy (mem_pyStrip hcm)

theorem keepVal_of_atom {x : Chars} (h : CleanAtom x) : keepVal x = true := by
  rcases h with ⟨h1, h2, _, _⟩
  unfold keepVal
  rw [Bool.and_eq_true]
  constructor
  · cases x with
    | nil => exact absurd rfl h1
    | cons a as => simp
  · simp [h2]

theorem flatMap_eq_self {f : Chars → List Chars} :
    ∀ {M : List Chars}, (∀ x ∈ M, f x = [x]) → M.flatMap f = M
  | [], _ => rfl
  | x :: xs, h => by
    rw [List.flatMap_cons, h x (List.mem_cons_self x xs),
      flatMap_eq_self (fun y hy => h y (List.mem_cons_of_mem x hy))]
    rfl

theorem normalize_storeVal : ∀ M : List Chars,
    normalize_to_list (storeVal M) = M
  | [] => rfl
  | [_] => rfl
  | _ :: _ :: _ => rfl

/-- Cleaning a stored, already-cleaned value gives it back. -/
theorem clean_storeVal {M : List Chars} (hs : M.Pairwise LtP)
    (ha : ∀ x ∈ M, CleanAtom x) : clean_values (storeVal M) = M := by
  unfold clean_values
  rw [normalize_storeVal]
  rw [flatMap_eq_self (f := fun s => (pySplit ',' s).map pyStrip) ?_]
  · rw [List.filter_eq_self.mpr (fun a hm => keepVal_of_atom (ha a hm))]
    exact sortedDedup_of_pairwise hs
  · intro x hx
    rcases ha x hx with ⟨_, _, hstrip, hcomma⟩
    show (pySplit ',' x).map pyStrip = [x]
    rw [pySplit_of_not_mem ',' hcomma]
    simp only [List.map_cons, List.map_nil, hstrip]

-- ======================================================================
-- Association-map lemmas
-- ======================================================================

theorem lookupKey_cons_self (k : Chars) (v : SVal) (rest : SMap) :
    lookupKey k ((k, v) :: rest) = some v := by
  simp [lookupKey]

theorem lookupKey_cons_ne {k k1 : Chars} (hne : ¬ k1 = k) (v : SVal)
    (rest : SMap) : lookupKey k ((k1, v) :: rest) = lookupKey k rest := by
  simp [lookupKey, hne]

theorem setKey_cons_self (k : Chars) (v v1 : SVal) (rest : SMap) :
    setKey k v ((k, v1) :: rest) = (k, v) :: rest := by
  simp [setKey]

theorem setKey_cons_ne {k k1 : Chars} (hne : ¬ k1 = k) (v v1 : SVal)
    (rest : SMap) :
    setKey k v ((k1, v1) :: rest) = (k1, v1) :: setKey k v rest := by
  simp [setKey, hne]

theorem lookup_setKey_self (k : Chars) (v : SVal) :
    ∀ m : SMap, lookupKey k (setKey k v m) = some v
  | [] => lookupKey_cons_self k v []
  | (k1, v1) :: rest => by
    by_cases h : k1 = k
    · subst h
      rw [setKey_cons_self, lookupKey_cons_self]
    · rw [setKey_cons_ne h, lookupKey_cons_ne h, lookup_setKey_self k v rest]

theorem lookup_setKey_ne {k k2 : Chars} (v : SVal) (hne : k ≠ k2) :
    ∀ m : SMap, lookupKey k (setKey k2 v m) = lookupKey k m
  | [] => by
    have h2 : ¬ k2 = k := fun h => hne h.symm
    show lookupKey k [(k2, v)] = none
    rw [lookupKey_cons_ne h2]
    rfl
  | (k1, v1) :: rest => by
    by_cases h : k1 = k2
    · subst h
      have h2 : ¬ k1 = k := fun h => hne h.symm
      rw [setKey_cons_self, lookupKey_cons_ne h2, lookupKey_cons_ne h2]
    · rw [setKey_cons_ne h]
      by_cases hk : k1 = k
      · subst hk
        rw [lookupKey_cons_self, lookupKey_cons_self]
      · rw [lookupKey_cons_ne hk, lookupKey_cons_ne hk,
          lookup_setKey_ne v hne rest]

theorem setKey_of_lookup {k : Chars} {v : SVal} :
    ∀ {m : SMap}, lookupKey k m = some v → setKey k v m = m
  | [], h => by simp [lookupKey] at h
  | (k1, v1) :: rest, h => by
    by_cases hk : k1 = k
    · subst hk
      rw [lookupKey_cons_self] at h
      rw [Option.some.inj h, setKey_cons_self]
    · rw [lookupKey_cons_ne hk] at h
      rw [setKey_cons_ne hk, setKey_of_lookup h]

theorem lookup_of_setKey_eq {k : Chars} {v : SVal} :
    ∀ {m : SMap}, setKey k v m = m → lookupKey k m = some v
  | [], h => by simp [setKey] at h
  | (k1, v1) :: rest, h => by
    by_cases hk : k1 = k
    · subst hk
      rw [setKey_cons_self] at h
      have hv2 : v = v1 := congrArg Prod.snd (List.cons.inj h).1
      rw [lookupKey_cons_self, hv2]
    · rw [setKey_cons_ne hk] at h
      rw [lookupKey_cons_ne hk]
      exact lookup_of_setKey_eq (List.cons.inj h).2

-- ======================================================================
-- Idempotence machinery for the key-value merge loops
-- ======================================================================

theorem mergeStep_unfold (ex : SMap) (k : Chars) (v : SVal) :
    mergeStep ex (k, v)
      = (if sortedDedup (clean_values (lookupVal k ex) ++ clean_values v) = []
         then ex
         else setKey k
           (storeVal (sortedDedup
              (clean_values (lookupVal k ex) ++ clean_values v))) ex) := rfl

theorem merged_atoms {old new : List Chars}
    (hold : ∀ x ∈ old, CleanAtom x) (hnew : ∀ x ∈ new, CleanAtom x) :
    ∀ x ∈ sortedDedup (old ++ new), CleanAtom x := by
  intro x hx
  rw [mem_sortedDedup, List.mem_append] at hx
  rcases hx with h | h
  · exact hold x h
  · exact hnew x h

/-- After a merge step for key `k`, re-running the same step changes
nothing. -/
theorem mergeStep_self_stable (ex : SMap) (k : Chars) (v : SVal) :
    mergeStep (mergeStep ex (k, v)) (k, v) = mergeStep ex (k, v) := by
  rw [mergeStep_unfold ex k v]
  by_cases hM : sortedDedup (clean_values (lookupVal k ex) ++ clean_values v)
      = []
  · rw [if_pos hM, mergeStep_unfold, if_pos hM]
  · rw [if_neg hM]
    set M := sortedDedup (clean_values (lookupVal k ex) ++ clean_values v)
      with hMdef
    have hsorted : M.Pairwise LtP := pairwise_sortedDedup _
    have hatoms : ∀ x ∈ M, CleanAtom x :=
      merged_atoms (fun x h => clean_values_atom h)
        (fun x h => clean_values_atom h)
    have hlook : lookupVal k (setKey k (storeVal M) ex) = storeVal M := by
      unfold lookupVal
      rw [lookup_setKey_self]
    rw [mergeStep_unfold, hlook, clean_storeVal hsorted hatoms]
    have habs : sortedDedup (M ++ clean_values v) = M := by
      refine sortedDedup_append_absorb hsorted ?_
      intro x hx
      rw [hMdef, mem_sortedDedup, List.mem_append]
      exact Or.inr hx
    rw [habs, if_neg hM, setKey_of_lookup (lookup_setKey_self k (storeVal M) ex)]

/-- A merge step that changes nothing keeps changing nothing after any
other merge step runs. -/
theorem mergeStep_stable_preserved {ex : SMap} {k : Chars} {v : SVal}
    (h : mergeStep ex (k, v) = ex) (g : Chars × SVal) :
    mergeStep (mergeStep ex g) (k, v) = mergeStep ex g := by
  rcases g with ⟨k2, v2⟩
  rw [mergeStep_unfold ex k2 v2]
  by_cases hM2 : sortedDedup (clean_values (lookupVal k2 ex) ++ clean_values v2)
      = []
  · rw [if_pos hM2]
    exact h
  · rw [if_neg hM2]
    set M2 := sortedDedup (clean_values (lookupVal k2 ex) ++ clean_values v2)
      with hM2def
    have hsorted2 : M2.Pairwise LtP := pairwise_sortedDedup _
    have hatoms2 : ∀ x ∈ M2, CleanAtom x :=
      merged_atoms (fun x hx => clean_values_atom hx)
        (fun x hx => clean_values_atom hx)
    rw [mergeStep_unfold] at h ⊢
    by_cases hkk : k = k2
    · subst hkk
      set O := clean_values (lookupVal k ex) with hOdef
      -- same key: the second step stored M2; the first step is absorbed
      have hlook : lookupVal k (setKey k (storeVal M2) ex) = storeVal M2 := by
        unfold lookupVal
        rw [lookup_setKey_self]
      rw [hlook, clean_storeVal hsorted2 hatoms2]
      by_cases hM : sortedDedup (O ++ clean_values v) = []
      · -- the first step merged nothing, so the new values clean to nothing
        have hnewnil : clean_values v = [] := by
          rcases hn : clean_values v with _ | ⟨a, as⟩
          · rfl
          · exfalso
            have ham : a ∈ sortedDedup (O ++ clean_values v) := by
              rw [mem_sortedDedup, List.mem_append, hn]
              exact Or.inr (List.mem_cons_self a as)
            rw [hM] at ham
            exact List.not_mem_nil a ham
        rw [hnewnil, List.append_nil, sortedDedup_of_pairwise hsorted2,
          if_neg hM2,
          setKey_of_lookup (lookup_setKey_self k (storeVal M2) ex)]
      · -- the first step stored M; hence ex already held M at k
        rw [if_neg hM] at h
        have hlookex : lookupKey k ex
            = some (storeVal (sortedDedup (O ++ clean_values v))) :=
          lookup_of_setKey_eq h
        have hval : lookupVal k ex
            = storeVal (sortedDedup (O ++ clean_values v)) := by
          unfold lookupVal
          rw [hlookex]
        have hOM : O = sortedDedup (O ++ clean_values v) := by
          conv_lhs => rw [hOdef, hval]
          exact clean_storeVal (pairwise_sortedDedup _)
            (merged_atoms (fun y hy => clean_values_atom hy)
              (fun y hy => clean_values_atom hy))
        -- new values are contained in M2
        have hsub : ∀ x ∈ clean_values v, x ∈ M2 := by
          intro x hx
          rw [hM2def, mem_sortedDedup, List.mem_append]
          left
          rw [hOM, mem_sortedDedup, List.mem_append]
          exact Or.inr hx
        rw [sortedDedup_append_absorb hsorted2 hsub, if_neg hM2,
          setKey_of_lookup (lookup_setKey_self k (storeVal M2) ex)]
    · -- distinct keys: the second step does not touch key k
      have hlook : lookupVal k (setKey k2 (storeVal M2) ex) = lookupVal k ex := by
        unfold lookupVal
        rw [lookup_setKey_ne _ hkk]
      rw [hlook]
      by_cases hM : sortedDedup (clean_values (lookupVal k ex) ++ clean_values v)
          = []
      · rw [if_pos hM]
      · rw [if_neg hM] at h ⊢
        have hlookex := lookup_of_setKey_eq h
        refine setKey_of_lookup ?_
        rw [lookup_setKey_ne _ hkk]
        exact hlookex

theorem mergeStep_stable_foldl {ex : SMap} {k : Chars} {v : SVal}
    (h : mergeStep ex (k, v) = ex) :
    ∀ G : List (Chars × SVal),
      mergeStep (G.foldl mergeStep ex) (k, v) = G.foldl mergeStep ex := by
  intro G
  induction G generalizing ex with
  | nil => exact h
  | cons g G ih =>
    rw [List.foldl_cons]
    exact ih (mergeStep_stable_preserved h g)

/-- After one pass of the merge loop, every fact of the pass is absorbed:
re-running its step changes nothing. -/
theorem mergeStep_stable_after {F : List (Chars × SVal)} {k : Chars} {v : SVal}
    (hmem : (k, v) ∈ F) (ex : SMap) :
    mergeStep (F.foldl mergeStep ex) (k, v) = F.foldl mergeStep ex := by
  induction F generalizing ex with
  | nil => exact absurd hmem (List.not_mem_nil _)
  | cons f F ih =>
    rw [List.foldl_cons]
    rcases List.mem_cons.mp hmem with h | h
    · subst h
      exact mergeStep_stable_foldl (mergeStep_self_stable ex k v) F
    · exact ih h (mergeStep ex f)

theorem foldl_of_all_stable {ex : SMap} :
    ∀ {F : List (Chars × SVal)},
      (∀ f ∈ F, mergeStep ex f = ex) → F.foldl mergeStep ex = ex
  | [], _ => rfl
  | f :: F, h => by
    rw [List.foldl_cons, h f (List.mem_cons_self f F),
      foldl_of_all_stable (fun g hg => h g (List.mem_cons_of_mem f hg))]

/-- The key-value merge loops of `save_user_summary` are idempotent. -/
theorem mergeSection_idem (F : List (Chars × SVal)) (ex : SMap) :
    mergeSection F (mergeSection F ex) = mergeSection F ex := by
  unfold mergeSection
  refine foldl_of_all_stable ?_
  intro f hf
  rcases f with ⟨k, v⟩
  exact mergeStep_stable_after hf ex

-- ======================================================================
-- Topic-loop lemmas
-- ======================================================================

theorem topicStep_mem_mono {acc : List Chars} {t u : Chars} (h : u ∈ acc) :
    u ∈ (if t ≠ [] ∧ ¬ t ∈ acc then acc ++ [t] else acc) := by
  by_cases hc : t ≠ [] ∧ ¬ t ∈ acc
  · rw [if_pos hc]
    exact List.mem_append_left _ h
  · rw [if_neg hc]
    exact h

theorem topicFold_mem_mono {u : Chars} :
    ∀ (L : List Chars) (acc : List Chars), u ∈ acc →
      u ∈ L.foldl
        (fun acc t => if t ≠ [] ∧ ¬ t ∈ acc then acc ++ [t] else acc) acc
  | [], _, h => h
  | t :: L, acc, h =>
    topicFold_mem_mono L _ (topicStep_mem_mono h)

theorem topicFold_mem_of_mem {u : Chars} (hu : u ≠ []) :
    ∀ (L : List Chars) (acc : List Chars), u ∈ L →
      u ∈ L.foldl
        (fun acc t => if t ≠ [] ∧ ¬ t ∈ acc then acc ++ [t] else acc) acc
  | [], _, h => absurd h (List.not_mem_nil u)
  | t :: L, acc, h => by
    rcases List.mem_cons.mp h with h | h
    · subst h
      have hstep : u ∈ (if u ≠ [] ∧ ¬ u ∈ acc then acc ++ [u] else acc) := by
        by_cases hc : ¬ u ∈ acc
        · rw [if_pos ⟨hu, hc⟩]
          exact List.mem_append_right _ (List.mem_singleton.mpr rfl)
        · rw [not_not] at hc
          exact topicStep_mem_mono hc
      exact topicFold_mem_mono L _ hstep
    · exact topicFold_mem_of_mem hu L _ h

theorem topicFold_of_all_mem :
    ∀ {L : List Chars} {acc : List Chars}, (∀ t ∈ L, t ∈ acc) →
      L.foldl
        (fun acc t => if t ≠ [] ∧ ¬ t ∈ acc then acc ++ [t] else acc) acc
      = acc
  | [], _, _ => rfl
  | t :: L, acc, h => by
    rw [List.foldl_cons,
      if_neg (by
        intro hc
        exact hc.2 (h t (List.mem_cons_self t L)))]
    exact topicFold_of_all_mem (fun u hu => h u (List.mem_cons_of_mem t hu))

/-- When the first pass does not overflow the 10-topic cap, the topic loop
is idempotent. -/
theorem mergeTopics_idem {v : SVal} {existing : List Chars}
    (h : (topicsAppended v existing).length ≤ 10) :
    mergeTopics v (mergeTopics v existing) = mergeTopics v existing := by
  have h1 : mergeTopics v existing = topicsAppended v existing := by
    unfold mergeTopics lastN
    rw [Nat.sub_eq_zero_of_le h, List.drop_zero]
  rw [h1]
  have h2 : topicsAppended v (topicsAppended v existing)
      = topicsAppended v existing := by
    unfold topicsAppended
    refine topicFold_of_all_mem ?_
    intro t ht
    have hatom := clean_values_atom ht
    exact topicFold_mem_of_mem hatom.1 _ _ ht
  unfold mergeTopics
  rw [h2, ← h1, h1]
  unfold lastN
  rw [Nat.sub_eq_zero_of_le h, List.drop_zero]

-- ======================================================================
-- Concrete data for witnesses and counterexamples
-- ======================================================================

def emptyProfile : Profile :=
  { personal_info := [], preferences := [], important_topics := [] }

def factsOneTopic : ExtractedFacts :=
  { personal_info := [("nombre".toList, SVal.str "Ana".toList)]
    preferences := [("le_gusta".toList, SVal.str "té".toList)]
    important_topics := SVal.vlist ["tema".toList] }

def factsElevenTopics : ExtractedFacts :=
  { personal_info := []
    preferences := []
    important_topics := SVal.vlist
      (["a", "b", "c", "d", "e", "f", "g", "h", "i", "j", "k"].map
        String.toList) }

-- ======================================================================
-- Claim C4
-- ======================================================================

/-- Claim C4, counterexample: merging the same eleven-topic fact set twice
into the empty profile does not equal merging it once — the 10-entry
truncation drops topic "a" on the first merge and the second merge appends
it again, rotating the ring. -/
theorem save_user_summary_not_idempotent :
    save_user_summary factsElevenTopics
        (save_user_summary factsElevenTopics emptyProfile)
      ≠ save_user_summary factsElevenTopics emptyProfile := by
  decide

/-- Claim C4 (amended): merging the same `ExtractedFacts` twice yields the
same profile as merging once, provided the topic list built by the first
merge (existing topics plus new non-duplicate topics, before the 10-entry
truncation) has at most 10 entries; when the cap truncates, dropped topics
are re-appended by the second merge and the results differ. -/
theorem save_user_summary_idem (F : ExtractedFacts) (P : Profile)
    (h : (topicsAppended F.important_topics P.important_topics).length ≤ 10) :
    save_user_summary F (save_user_summary F P) = save_user_summary F P := by
  unfold save_user_summary
  rw [Profile.mk.injEq]
  exact ⟨mergeSection_idem _ _, mergeSection_idem _ _, mergeTopics_idem h⟩

/-- Claim C4, witness: the amended idempotence theorem applied to a
concrete one-topic fact set and the empty profile. -/
theorem save_user_summary_idem_witness :
    (topicsAppended factsOneTopic.important_topics
        emptyProfile.important_topics).length ≤ 10
    ∧ save_user_summary factsOneTopic
        (save_user_summary factsOneTopic emptyProfile)
      = save_user_summary factsOneTopic emptyProfile :=
  ⟨by decide, save_user_summary_idem factsOneTopic emptyProfile (by decide)⟩

-- ======================================================================
-- Claim C5: profile invariant preservation
-- ======================================================================

/-- No stored field value is an empty string (a list value has no empty
element). -/
def ValNE : SVal → Prop
  | .str s => s ≠ []
  | .vlist l => ∀ x ∈ l, x ≠ []

instance : DecidablePred ValNE := fun v =>
  match v with
  | .str s => decidable_of_iff (s ≠ []) Iff.rfl
  | .vlist l => decidable_of_iff (∀ x ∈ l, x ≠ []) Iff.rfl

/-- The Profile invariant of spec section 3: `importantTopics` bounded by
10 with no duplicates, and no field value an empty string. -/
def ProfileInv (p : Profile) : Prop :=
  p.important_topics.length ≤ 10 ∧
  p.important_topics.Nodup ∧
  (∀ t ∈ p.important_topics, t ≠ []) ∧
  (∀ kv ∈ p.personal_info, ValNE kv.2) ∧
  (∀ kv ∈ p.preferences, ValNE kv.2)

instance (p : Profile) : Decidable (ProfileInv p) :=
  decidable_of_iff
    (p.important_topics.length ≤ 10 ∧
     p.important_topics.Nodup ∧
     (∀ t ∈ p.important_topics, t ≠ []) ∧
     (∀ kv ∈ p.personal_info, ValNE kv.2) ∧
     (∀ kv ∈ p.preferences, ValNE kv.2)) Iff.rfl

theorem mem_setKey {kv : Chars × SVal} {k : Chars} {v : SVal} :
    ∀ {m : SMap}, kv ∈ setKey k v m → kv ∈ m ∨ kv = (k, v)
  | [], h => by
    simp only [setKey, List.mem_singleton] at h
    exact Or.inr h
  | (k1, v1) :: rest, h => by
    by_cases hk : k1 = k
    · subst hk
      rw [setKey_cons_self] at h
      rcases List.mem_cons.mp h with h | h
      · exact Or.inr h
      · exact Or.inl (List.mem_cons_of_mem _ h)
    · rw [setKey_cons_ne hk] at h
      rcases List.mem_cons.mp h with h | h
      · exact Or.inl (h ▸ List.mem_cons_self _ _)
      · rcases mem_setKey h with h2 | h2
        · exact Or.inl (List.mem_cons_of_mem _ h2)
        · exact Or.inr h2

theorem storeVal_ValNE {M : List Chars} (h : ∀ x ∈ M, x ≠ []) :
    ValNE (storeVal M) := by
  match M with
  | [] => exact fun x hx => absurd hx (List.not_mem_nil x)
  | [m] => exact h m (List.mem_singleton.mpr rfl)
  | a :: b :: rest => exact h

theorem mergeStep_ValNE {ex : SMap} (h : ∀ kv ∈ ex, ValNE kv.2)
    (f : Chars × SVal) : ∀ kv ∈ mergeStep ex f, ValNE kv.2 := by
  rcases f with ⟨k, v⟩
  rw [mergeStep_unfold]
  by_cases hM : sortedDedup (clean_values (lookupVal k ex) ++ clean_values v)
      = []
  · rw [if_pos hM]
    exact h
  · rw [if_neg hM]
    intro kv hkv
    rcases mem_setKey hkv with h2 | h2
    · exact h kv h2
    · rw [h2]
      refine storeVal_ValNE ?_
      intro x hx
      exact (merged_atoms (fun y hy => clean_values_atom hy)
        (fun y hy => clean_values_atom hy) x hx).1

theorem mergeSection_ValNE {F : List (Chars × SVal)} {ex : SMap}
    (h : ∀ kv ∈ ex, ValNE kv.2) : ∀ kv ∈ mergeSection F ex, ValNE kv.2 := by
  unfold mergeSection
  induction F generalizing ex with
  | nil => exact h
  | cons f F ih =>
    rw [List.foldl_cons]
    exact ih (mergeStep_ValNE h f)

theorem topicFold_nodup :
    ∀ (L : List Chars) {acc : List Chars}, acc.Nodup →
      (L.foldl
        (fun acc t => if t ≠ [] ∧ ¬ t ∈ acc then acc ++ [t] else acc)
        acc).Nodup
  | [], _, h => h
  | t :: L, acc, h => by
    rw [List.foldl_cons]
    refine topicFold_nodup L ?_
    by_cases hc : t ≠ [] ∧ ¬ t ∈ acc
    · show (if t ≠ [] ∧ ¬ t ∈ acc then acc ++ [t] else acc).Nodup
      rw [if_pos hc, List.nodup_append]
      exact ⟨h, List.nodup_singleton t,
        fun a ha hb => hc.2 ((List.mem_singleton.mp hb) ▸ ha)⟩
    · show (if t ≠ [] ∧ ¬ t ∈ acc then acc ++ [t] else acc).Nodup
      rw [if_neg hc]
      exact h

theorem topicFold_ne_nil :
    ∀ (L : List Chars) {acc : List Chars}, (∀ u ∈ acc, u ≠ []) →
      ∀ u ∈ L.foldl
        (fun acc t => if t ≠ [] ∧ ¬ t ∈ acc then acc ++ [t] else acc) acc,
        u ≠ []
  | [], _, h => h
  | t :: L, acc, h => by
    rw [List.foldl_cons]
    refine topicFold_ne_nil L ?_
    intro u hu
    by_cases hc : t ≠ [] ∧ ¬ t ∈ acc
    · rw [if_pos hc] at hu
      rcases List.mem_append.mp hu with h2 | h2
      · exact h u h2
      · rw [List.mem_singleton.mp h2]
        exact hc.1
    · rw [if_neg hc] at hu
      exact h u hu

/-- Claim C5: every merge preserves the profile invariant — after
`save_user_summary` on an invariant-satisfying profile, `important_topics`
has at most 10 pairwise-distinct entries and no stored field value is an
empty string. -/
theorem save_user_summary_preserves_inv (F : ExtractedFacts) (P : Profile)
    (h : ProfileInv P) : ProfileInv (save_user_summary F P) := by
  rcases h with ⟨hlen, hnodup, hne, hpi, hpref⟩
  refine ⟨?_, ?_, ?_, ?_, ?_⟩
  · show (mergeTopics F.important_topics P.important_topics).length ≤ 10
    unfold mergeTopics lastN
    rw [List.length_drop]
    omega
  · show (mergeTopics F.important_topics P.important_topics).Nodup
    unfold mergeTopics lastN topicsAppended
    exact List.Nodup.sublist (List.drop_sublist _ _)
      (topicFold_nodup _ hnodup)
  · show ∀ t ∈ mergeTopics F.important_topics P.important_topics, t ≠ []
    unfold mergeTopics lastN topicsAppended
    intro t ht
    exact topicFold_ne_nil _ hne t ((List.drop_sublist _ _).mem ht)
  · exact mergeSection_ValNE hpi
  · exact mergeSection_ValNE hpref

/-- Claim C5, witness: the invariant-preservation theorem applied to the
concrete one-topic fact set and the empty profile. -/
theorem save_user_summary_preserves_inv_witness :
    ProfileInv emptyProfile
    ∧ ProfileInv (save_user_summary factsOneTopic emptyProfile) :=
  ⟨by decide,
    save_user_summary_preserves_inv factsOneTopic emptyProfile (by decide)⟩

-- ======================================================================
-- Claim C6: the café / Café, té merge scenario
-- ======================================================================

def cafeProfile : Profile :=
  { personal_info := []
    preferences := [("le_gusta".toList, SVal.str "café".toList)]
    important_topics := [] }

def cafeFacts : ExtractedFacts :=
  { personal_info := []
    preferences := [("le_gusta".toList, SVal.str "Café, té".toList)]
    important_topics := SVal.vlist [] }

/-- Claim C6, counterexample: with `preferences.le_gusta = "café"` stored
and incoming `"Café, té"`, the merged value is not the case-folded list
`["café", "té"]` the claim states. -/
theorem cafe_merge_not_casefolded :
    lookupKey "le_gusta".toList
        (save_user_summary cafeFacts cafeProfile).preferences
      ≠ some (SVal.vlist ["café".toList, "té".toList]) := by
  decide

/-- Claim C6 (amended): the merged value is the sorted three-element list
`["Café", "café", "té"]` — incoming values are comma-split, trimmed and
unioned with the existing ones, but deduplication is by exact string;
case-folding is applied only to the "no se proporcionó" sentinel test,
so "Café" and "café" coexist. -/
theorem cafe_merge_value :
    lookupKey "le_gusta".toList
        (save_user_summary cafeFacts cafeProfile).preferences
      = some (SVal.vlist
          ["Café".toList, "café".toList, "té".toList]) := by
  decide

-- ======================================================================
-- should_update_summary: src/core/summary_manager.py lines 122-144
-- ======================================================================

/-- Word characters of Python `\w` on the character range the repository
uses (ASCII alphanumerics, underscore, and the Spanish accented letters). -/
def isWordChar (c : Char) : Bool :=
  c.isAlphanum || c = '_' ||
    ['á', 'é', 'í', 'ó', 'ú', 'ñ', 'ü',
     'Á', 'É', 'Í', 'Ó', 'Ú', 'Ñ', 'Ü'].contains c

/-- Match a literal, then hand the remaining input to a continuation. -/
def litThen : Chars → (Chars → Bool) → Chars → Bool
  | [], k, s => k s
  | _ :: _, _, [] => false
  | l :: ls, k, c :: cs => c == l && litThen ls k cs

/-- The next character exists and satisfies `p` (the `\w+` / `\d+` tail of
the patterns: one such character suffices for a match to exist). -/
def headIs (p : Char → Bool) : Chars → Bool
  | [] => false
  | c :: _ => p c

/-- Tail of `\bmi .+ es \w+` after the literal `"mi "`: at least one
non-newline character, then `" es "`, then a word character. -/
def dotPlusEsTail : Chars → Bool
  | [] => false
  | c :: cs =>
    !(c == '\n') &&
      (litThen " es ".toList (headIs isWordChar) cs || dotPlusEsTail cs)

/-- Tail of `\btengo \d+ años` after the literal `"tengo "`: one or more
digits immediately followed by `" años"`. -/
def digitsAnosTail : Chars → Bool
  | [] => false
  | c :: cs =>
    c.isDigit &&
      (litThen " años".toList (fun _ => true) cs || digitsAnosTail cs)

def searchBoundaryAux (m : Chars → Bool) : Chars → Bool
  | [] => false
  | c :: cs => (!isWordChar c && m cs) || searchBoundaryAux m cs

/-- `re.search` for a pattern of the form `\b...` whose first literal
character is a word character: try a match at the start, or just after any
non-word character. -/
def searchBoundary (m : Chars → Bool) (s : Chars) : Bool :=
  m s || searchBoundaryAux m s

/-- The twelve personal-disclosure patterns of `should_update_summary`
(src/core/summary_manager.py lines 131-137), in source order. -/
def personalPats : List (Chars → Bool) :=
  [ litThen "me llamo ".toList (headIs isWordChar)
  , litThen "mi nombre es ".toList (headIs isWordChar)
  , litThen "soy ".toList (headIs isWordChar)
  , litThen "trabajo en ".toList (headIs isWordChar)
  , litThen "vivo en ".toList (headIs isWordChar)
  , litThen "tengo ".toList (headIs Char.isDigit)
  , litThen "mi ".toList dotPlusEsTail
  , litThen "estoy aprendiendo ".toList (headIs isWordChar)
  , litThen "me dedico a ".toList (headIs isWordChar)
  , litThen "mi profesión es ".toList (headIs isWordChar)
  , litThen "mi edad es ".toList (headIs Char.isDigit)
  , litThen "tengo ".toList digitsAnosTail ]

/-- `should_update_summary` (src/core/summary_manager.py lines 122-144):
keyword loop with early return, then the pattern loop, then the word-count
test.  The keyword list is the configuration input `load_keyword_phrases`;
the `response` argument is accepted and never used, as in the source. -/
def should_update_summary (keywords : List Chars) (prompt response : Chars) :
    Bool :=
  let prompt_lower := pyLower prompt
  if keywords.any (fun kw => containsSub kw prompt_lower) then true
  else if personalPats.any (fun m => searchBoundary m prompt_lower) then true
  else if countWords prompt > 20 then true
  else false

-- ======================================================================
-- Claim C8
-- ======================================================================

/-- Claim C8: `should_update_summary` returns true exactly when the
lowercased prompt contains a configured keyword as a substring, or matches
one of the fixed personal-disclosure patterns, or the whitespace-split
word count of the prompt exceeds 20. -/
theorem should_update_summary_iff (keywords : List Chars)
    (prompt response : Chars) :
    should_update_summary keywords prompt response = true
      ↔ ((∃ kw ∈ keywords, containsSub kw (pyLower prompt) = true)
         ∨ (∃ m ∈ personalPats, searchBoundary m (pyLower prompt) = true)
         ∨ countWords prompt > 20) := by
  unfold should_update_summary
  by_cases h1 : keywords.any (fun kw => containsSub kw (pyLower prompt)) = true
  · rw [if_pos h1]
    simp only [true_iff]
    exact Or.inl (List.any_eq_true.mp h1)
  · rw [if_neg h1]
    by_cases h2 : personalPats.any
        (fun m => searchBoundary m (pyLower prompt)) = true
    · rw [if_pos h2]
      simp only [true_iff]
      exact Or.inr (Or.inl (List.any_eq_true.mp h2))
    · rw [if_neg h2]
      by_cases h3 : countWords prompt > 20
      · rw [if_pos h3]
        simp only [true_iff]
        exact Or.inr (Or.inr h3)
      · rw [if_neg h3]
        constructor
        · intro h
          exact absurd h (by simp)
        · intro h
          rcases h with h | h | h
          · exact absurd (List.any_eq_true.mpr h) h1
          · exact absurd (List.any_eq_true.mpr h) h2
          · exact absurd h h3

-- ======================================================================
-- Claim C10
-- ======================================================================

/-- Claim C10: `should_update_summary` is independent of its `response`
argument — the update decision is a function of the prompt and the
configured keywords alone. -/
theorem should_update_summary_response_independent (keywords : List Chars)
    (prompt r1 r2 : Chars) :
    should_update_summary keywords prompt r1
      = should_update_summary keywords prompt r2 := rfl

-- ======================================================================
-- Claim C9: reply chunking (src/handlers/telegram_handler.py lines 81-84)
-- ======================================================================

/-- The chunking loop `for i in range(0, len(response), 4096):
response[i:i+4096]`, as structural recursion with a fuel argument; the loop
runs at most `len(response)` iterations, so `fuel = length` reproduces it
exactly. -/
def sendChunksFuel : Nat → Chars → List Chars
  | _, [] => []
  | 0, _ :: _ => []
  | fuel + 1, c :: cs =>
    (c :: cs).take 4096 :: sendChunksFuel fuel ((c :: cs).drop 4096)

/-- The chunk sequence sent for one generated response. -/
def sendChunks (response : Chars) : List Chars :=
  sendChunksFuel response.length response

theorem sendChunksFuel_length_le :
    ∀ (fuel : Nat) (l : Chars), l.length ≤ fuel →
      ∀ c ∈ sendChunksFuel fuel l, c.length ≤ 4096
  | _, [], _ => by
    intro c hc
    simp [sendChunksFuel] at hc
  | 0, x :: xs, h => by
    simp at h
  | fuel + 1, x :: xs, h => by
    intro c hc
    rcases List.mem_cons.mp hc with hc | hc
    · subst hc
      rw [List.length_take]
      omega
    · refine sendChunksFuel_length_le fuel ((x :: xs).drop 4096) ?_ c hc
      rw [List.length_drop]
      simp only [List.length_cons] at h ⊢
      omega

theorem sendChunksFuel_flatten :
    ∀ (fuel : Nat) (l : Chars), l.length ≤ fuel →
      (sendChunksFuel fuel l).flatten = l
  | _, [], _ => by simp [sendChunksFuel]
  | 0, x :: xs, h => by simp at h
  | fuel + 1, x :: xs, h => by
    rw [show sendChunksFuel (fuel + 1) (x :: xs)
        = (x :: xs).take 4096 :: sendChunksFuel fuel ((x :: xs).drop 4096)
        from rfl,
      List.flatten_cons,
      sendChunksFuel_flatten fuel ((x :: xs).drop 4096) (by
        rw [List.length_drop]
        simp only [List.length_cons] at h ⊢
        omega),
      List.take_append_drop]

theorem sendChunksFuel_nil (fuel : Nat) : sendChunksFuel fuel [] = [] := by
  cases fuel <;> rfl

theorem sendChunksFuel_single (fuel : Nat) (l : Chars) (hne : l ≠ [])
    (hlen : l.length ≤ 4096) (hfuel : 1 ≤ fuel) :
    sendChunksFuel fuel l = [l] := by
  match fuel, l with
  | 0, _ => omega
  | fuel + 1, [] => exact absurd rfl hne
  | fuel + 1, x :: xs =>
    rw [show sendChunksFuel (fuel + 1) (x :: xs)
        = (x :: xs).take 4096 :: sendChunksFuel fuel ((x :: xs).drop 4096)
        from rfl,
      List.take_of_length_le hlen,
      List.drop_eq_nil_iff.mpr hlen, sendChunksFuel_nil]

/-- Claim C9, counterexample: the empty response is sent as zero chunks,
not as a single chunk, although its length is within the 4096 limit. -/
theorem sendChunks_empty_not_single :
    ([] : Chars).length ≤ 4096 ∧ sendChunks [] ≠ [([] : Chars)] := by
  constructor
  · decide
  · decide

/-- Claim C9 (amended): every chunk has length at most 4096 and the chunks
concatenate in order to the full response; a NONEMPTY response of length
at most 4096 is sent as a single chunk, while the empty response is sent
as no chunk at all. -/
theorem sendChunks_spec (r : Chars) :
    (∀ c ∈ sendChunks r, c.length ≤ 4096)
    ∧ (sendChunks r).flatten = r
    ∧ (r ≠ [] → r.length ≤ 4096 → sendChunks r = [r]) := by
  refine ⟨sendChunksFuel_length_le r.length r le_rfl,
    sendChunksFuel_flatten r.length r le_rfl, ?_⟩
  intro hne hlen
  refine sendChunksFuel_single r.length r hne hlen ?_
  rcases r with _ | ⟨x, xs⟩
  · exact absurd rfl hne
  · simp

/-- Claim C9, witness: the amended chunking theorem evaluated on the
concrete response "hola". -/
theorem sendChunks_spec_witness :
    ("hola".toList ≠ [] ∧ "hola".toList.length ≤ 4096)
    ∧ sendChunks "hola".toList = ["hola".toList] :=
  ⟨⟨by decide, by decide⟩,
    (sendChunks_spec "hola".toList).2.2 (by decide) (by decide)⟩

-- ======================================================================
-- Debounce handler state: src/handlers/telegram_handler.py
-- ======================================================================

/-- The module-level dictionaries `locks` and `user_pending_messages`
(src/handlers/telegram_handler.py lines 28-31), keyed by user id.  A user
absent from `locks` reads as unlocked (`locks.get(user_id, False)`); a
user absent from `user_pending_messages` has no buffer. -/
structure TgState where
  locks : Nat → Bool
  pending : Nat → Option (List Chars)

/-- `schedule_debounced_response` (lines 55-65), state part: create the
buffer if absent and append the message.  Timer objects are not part of
the state model; the timer callback is `process_debounced_messages`. -/
def schedule_debounced_response (u : Nat) (message : Chars) (st : TgState) :
    TgState :=
  { st with pending := fun v =>
      if v = u then some ((st.pending u).getD [] ++ [message])
      else st.pending v }

/-- `process_user_message` (lines 68-96) as seen by its caller: if the
user's lock is set, return immediately (no reply thread); otherwise a
reply thread is spawned that will call `generate_response` on the prompt.
The returned option is the prompt handed to generation, `none` when no
generation is triggered. -/
def process_user_message (u : Nat) (prompt : Chars) (st : TgState) :
    TgState × Option Chars :=
  if st.locks u then (st, none) else (st, some prompt)

/-- `process_debounced_messages` (lines 46-52): if a buffer exists, join
its messages with newlines, DELETE the buffer, then call
`process_user_message` on the combined prompt. -/
def process_debounced_messages (u : Nat) (st : TgState) :
    TgState × Option Chars :=
  match st.pending u with
  | none => (st, none)
  | some messages =>
    let combined := joinNL messages
    let st2 : TgState :=
      { st with pending := fun v => if v = u then none else st.pending v }
    process_user_message u combined st2

/-- `handle_message` (lines 99-109): strip the text, refuse non-whitelisted
users when a whitelist is configured, tell a locked user to wait, else
buffer the stripped message.  `wl = []` models an unset whitelist (falsy in
`if WHITELIST and ...`). -/
def handle_message (wl : List Nat) (u : Nat) (text : Chars) (st : TgState) :
    TgState :=
  let message := pyStrip text
  if wl ≠ [] ∧ ¬ u ∈ wl then st
  else if st.locks u then st
  else schedule_debounced_response u message st

def emptyTgState : TgState :=
  { locks := fun _ => false, pending := fun _ => none }

/-- A user who is locked (mid-generation) with one buffered message. -/
def lockedBufferedState : TgState :=
  { locks := fun u => u == 0
    pending := fun u => if u = 0 then some ["hola".toList] else none }

-- ======================================================================
-- Claim C1
-- ======================================================================

/-- Claim C1, counterexample: user 0 is locked with "hola" buffered when
the debounce timer fires; the flush is skipped, but the buffer is deleted
— the message does not remain buffered for the next cycle. -/
theorem debounce_locked_drops_buffer :
    (process_debounced_messages 0 lockedBufferedState).2 = none
    ∧ (process_debounced_messages 0 lockedBufferedState).1.pending 0 = none := by
  exact ⟨rfl, rfl⟩

/-- Claim C1 (amended): when the debounce timer fires for a locked user
with a non-empty buffer, no generation call is issued for that cycle, but
the buffered messages are deleted before the lock check and are therefore
dropped, not re-buffered. -/
theorem debounce_locked_skips_flush (st : TgState) (u : Nat)
    (msgs : List Chars) (hp : st.pending u = some msgs)
    (hl : st.locks u = true) :
    (process_debounced_messages u st).2 = none
    ∧ (process_debounced_messages u st).1.pending u = none := by
  unfold process_debounced_messages process_user_message
  rw [hp]
  dsimp only
  rw [if_pos hl]
  exact ⟨rfl, by simp⟩

/-- Claim C1, witness: the amended theorem applied to the locked state
with "hola" buffered. -/
theorem debounce_locked_skips_flush_witness :
    lockedBufferedState.pending 0 = some ["hola".toList]
    ∧ lockedBufferedState.locks 0 = true
    ∧ ((process_debounced_messages 0 lockedBufferedState).2 = none
       ∧ (process_debounced_messages 0 lockedBufferedState).1.pending 0
         = none) :=
  ⟨rfl, rfl, debounce_locked_skips_flush lockedBufferedState 0
    ["hola".toList] rfl rfl⟩

-- ======================================================================
-- Claim C7
-- ======================================================================

/-- Claim C7, counterexample: a user sends a whitespace-only message; it
is stripped to the empty string and buffered, and when the timer fires a
generation call IS issued, with the empty combined prompt — the code never
checks the flushed prompt for emptiness. -/
theorem flush_whitespace_issues_generation :
    (process_debounced_messages 0
        (handle_message [] 0 "   ".toList emptyTgState)).2 = some []
    ∧ (process_debounced_messages 0
        (handle_message [] 0 "   ".toList emptyTgState)).2 ≠ none := by
  exact ⟨rfl, by decide⟩

/-- Claim C7 (amended): if no pending buffer exists at flush time, no
generation call is issued; but whenever a buffer exists and the user is
unlocked — even when every buffered message is empty or whitespace-only —
a generation call is issued with the newline-joined combined prompt. -/
theorem flush_behavior (st : TgState) (u : Nat) :
    (st.pending u = none → process_debounced_messages u st = (st, none))
    ∧ (∀ msgs, st.pending u = some msgs → st.locks u = false →
        (process_debounced_messages u st).2 = some (joinNL msgs)) := by
  constructor
  · intro hp
    unfold process_debounced_messages
    rw [hp]
  · intro msgs hp hl
    unfold process_debounced_messages process_user_message
    rw [hp]
    dsimp only
    rw [if_neg (by simp [hl])]

/-- Claim C7, witness: the amended theorem applied to the state produced
by a whitespace-only message from user 0. -/
theorem flush_behavior_witness :
    (handle_message [] 0 "   ".toList emptyTgState).pending 0 = some [[]]
    ∧ (process_debounced_messages 0
        (handle_message [] 0 "   ".toList emptyTgState)).2 = some (joinNL [[]]) :=
  ⟨rfl, (flush_behavior (handle_message [] 0 "   ".toList emptyTgState) 0).2
    [[]] rfl rfl⟩

-- ======================================================================
-- Claim C3: the reply thread releases the lock on every exit path
-- (src/handlers/telegram_handler.py lines 73-96)
-- ======================================================================

/-- Per-user lock state: the `locks[user_id]` flag, whether a deadline
timer exists in `lock_timeouts[user_id]` that has not been cancelled, and
whether `cancel()` has been called on it. -/
structure LockState where
  locked : Bool
  timerArmed : Bool
  timerCancelled : Bool
deriving DecidableEq, Repr

/-- The operations of the `try` body of `reply` that can raise (lines
79-85): the "Pensando..." reply, `generate_response` (its own `try` starts
after two fallible statements, so the call can still raise), each chunk
send, and the logging call. -/
inductive ReplyOp where
  | sendPensando
  | callGenerate
  | sendChunk
  | logInfo
deriving DecidableEq, Repr

/-- The fallible statements of the `try` body in source order, with
`nChunks` iterations of the chunk-send loop. -/
def replyTryBody (nChunks : Nat) : List ReplyOp :=
  ReplyOp.sendPensando :: ReplyOp.callGenerate ::
    (List.replicate nChunks ReplyOp.sendChunk ++ [ReplyOp.logInfo])

inductive Outcome where
  | ok
  | exc
deriving DecidableEq, Repr

/-- Execute the try-body operations in order; `fails i = true` means the
i-th operation raises, aborting the rest of the body.  None of these
operations writes the lock state. -/
def runOps (fails : Nat → Bool) : Nat → List ReplyOp → Outcome
  | _, [] => Outcome.ok
  | i, _ :: ops => if fails i then Outcome.exc else runOps fails (i + 1) ops

/-- The `finally` block (lines 91-94): cancel the deadline timer if one is
present, then clear the lock. -/
def replyFinally (st : LockState) : LockState :=
  let st2 :=
    if st.timerArmed then
      { st with timerArmed := false, timerCancelled := true }
    else st
  { st2 with locked := false }

/-- The `reply` closure (lines 73-96).  Lines 75-77 set the lock and arm
the deadline timer; the watchdog `reset_lock` (lines 39-43) may fire
mid-generation and clear the lock early; the `try` body may raise at any
fallible operation; on an exception the `except` handler sends an error
reply which may itself raise; the `finally` block runs on the success
path, the handled-exception path, and the handler-raised path alike.  The
second component reports how the thread ended: `none` for success,
`some .ok` for a handled backend error, `some .exc` for an exception
escaping the handler. -/
def reply_thread (fails : Nat → Bool) (handlerFails : Bool)
    (timerFires : Bool) (nChunks : Nat) : LockState × Option Outcome :=
  let st1 : LockState :=
    { locked := true, timerArmed := true, timerCancelled := false }
  let st2 := if timerFires then { st1 with locked := false } else st1
  match runOps fails 0 (replyTryBody nChunks) with
  | Outcome.ok => (replyFinally st2, none)
  | Outcome.exc =>
    if handlerFails then (replyFinally st2, some Outcome.exc)
    else (replyFinally st2, some Outcome.ok)

/-- Claim C3: on every exit path of the reply thread — success, backend
error, any raised exception, even one raised inside the error handler, and
whether or not the watchdog fired — the deadline timer is cancelled and
the user's lock is cleared. -/
theorem reply_thread_releases (fails : Nat → Bool) (handlerFails : Bool)
    (timerFires : Bool) (nChunks : Nat) :
    (reply_thread fails handlerFails timerFires nChunks).1.locked = false
    ∧ (reply_thread fails handlerFails timerFires nChunks).1.timerArmed
      = false
    ∧ (reply_thread fails handlerFails timerFires nChunks).1.timerCancelled
      = true := by
  unfold reply_thread
  rcases hout : runOps fails 0 (replyTryBody nChunks) with _ | _
  · dsimp only
    unfold replyFinally
    by_cases ht : timerFires
    · rw [if_pos ht]
      simp
    · rw [if_neg ht]
      simp
  · dsimp only
    by_cases hh : handlerFails
    · rw [if_pos hh]
      unfold replyFinally
      by_cases ht : timerFires
      · rw [if_pos ht]
        simp
      · rw [if_neg ht]
        simp
    · rw [if_neg hh]
      unfold replyFinally
      by_cases ht : timerFires
      · rw [if_pos ht]
        simp
      · rw [if_neg ht]
        simp

-- ======================================================================
-- Claim C2: interleaving model of the lock check and the reply thread
-- (src/handlers/telegram_handler.py lines 68-96)
-- ======================================================================

/-- Program counters for one user's threads.  A flush (an invocation of
`process_user_message`) runs its lock check (line 70) and, when the lock
reads clear, spawns a reply thread (line 96).  The spawned reply thread
sets `locks[user_id] = True` (line 75), calls `generate_response`
(line 80) — `replyInGen` marks a call that has entered the backend and not
yet returned — and finally clears the lock (line 94). -/
inductive TPhase where
  | callerCheck
  | callerDone
  | replySetLock
  | replyCallGen
  | replyInGen
  | replyRelease
  | replyDone
deriving DecidableEq, Repr

/-- Shared state for one user: the lock flag plus every thread's program
counter. -/
structure Config where
  locked : Bool
  threads : List TPhase
deriving DecidableEq, Repr

/-- One atomic step of thread `i`.  The caller's check-and-spawn is taken
as a single step (merging two actions of the same thread only removes
interleavings); the reply thread's lock write, backend call entry, backend
return and lock release are separate steps, exactly as they are separate
statements run by a separate thread in the source. -/
def stepThread (cfg : Config) (i : Nat) : Config :=
  match cfg.threads[i]? with
  | some TPhase.callerCheck =>
    if cfg.locked then { cfg with threads := cfg.threads.set i TPhase.callerDone }
    else
      { cfg with
          threads := cfg.threads.set i TPhase.callerDone ++ [TPhase.replySetLock] }
  | some TPhase.replySetLock =>
    { locked := true, threads := cfg.threads.set i TPhase.replyCallGen }
  | some TPhase.replyCallGen =>
    { cfg with threads := cfg.threads.set i TPhase.replyInGen }
  | some TPhase.replyInGen =>
    { cfg with threads := cfg.threads.set i TPhase.replyRelease }
  | some TPhase.replyRelease =>
    { locked := false, threads := cfg.threads.set i TPhase.replyDone }
  | _ => cfg

/-- Run a schedule: at each step the named thread executes its next atomic
action. -/
def runSched (cfg : Config) (sched : List Nat) : Config :=
  sched.foldl stepThread cfg

/-- Number of generation calls currently in flight for the user. -/
def inFlight (cfg : Config) : Nat :=
  cfg.threads.countP (fun s => s == TPhase.replyInGen)

/-- Two debounce flushes for the same unlocked user, about to run their
lock checks. -/
def twoFlushes : Config :=
  { locked := false, threads := [TPhase.callerCheck, TPhase.callerCheck] }

/-- Claim C2, counterexample: the check (line 70) and the set (line 75)
are not atomic — under the schedule that runs both checks before either
reply thread sets the lock, both flushes reach the generation backend and
two generation calls are in flight for the same user. -/
theorem two_generations_in_flight :
    inFlight (runSched twoFlushes [0, 1, 2, 2, 3, 3]) = 2 := by
  decide

/-- Claim C2 (amended): the lock check in `process_user_message` is a
separate atomic step from the lock set performed inside the spawned reply
thread, so two flushes that both observe the lock clear can both reach
the backend; what the check does guarantee is that a flush observing the
lock set spawns no reply thread and issues no generation call. -/
theorem locked_check_no_spawn (cfg : Config) (i : Nat)
    (hl : cfg.locked = true)
    (ht : cfg.threads[i]? = some TPhase.callerCheck) :
    stepThread cfg i
      = { cfg with threads := cfg.threads.set i TPhase.callerDone } := by
  unfold stepThread
  rw [ht, hl]
  rfl

/-- Claim C2, witness: a locked configuration with one pending flush; its
check step spawns nothing and leaves zero generation calls in flight. -/
theorem locked_check_no_spawn_witness :
    ({ locked := true, threads := [TPhase.callerCheck] } : Config).locked
      = true
    ∧ stepThread { locked := true, threads := [TPhase.callerCheck] } 0
      = { locked := true, threads := [TPhase.callerDone] } :=
  ⟨rfl, by
    rw [locked_check_no_spawn
      { locked := true, threads := [TPhase.callerCheck] } 0 rfl rfl]
    rfl⟩
